import Mathlib

/-!
Verification of the algorithmic core of the smart-text-editor repository.

The trie (`src/src/components/Trie.js`) and the editor orchestration
(`src/src/components/TextEditor.jsx`) are embedded from the source.
`KMP.js` and `SpellChecker.js` are imported by `TextEditor.jsx` but are not
part of the exposed source tree; the functions they export (`kmpSearch`,
`getCorrection`) are modelled from the specification (spec.md §4.2, §4.3).

Strings are modelled as `List Char`; JavaScript `toLowerCase` is modelled
per character by `Char.toLower` (the spec declares Unicode handling a
non-goal, so the ASCII behaviour is the relevant fragment).
-/

set_option maxHeartbeats 1000000

namespace STE

/-- Model of JS `String.prototype.toLowerCase` on a `List Char` string. -/
def toLowerCase (s : List Char) : List Char := s.map Char.toLower

/-- `TrieNode` from `src/src/components/Trie.js`: `this.children = {}` is an
insertion-ordered map from characters to child nodes (modelled as an
association list, matching JS object key order), `this.isEnd = false`. -/
inductive TrieNode where
  | mk (children : List (Char × TrieNode)) (isEnd : Bool)

/-- The `children` field of a `TrieNode`. -/
def TrieNode.children : TrieNode → List (Char × TrieNode)
  | .mk cs _ => cs

/-- The `isEnd` field of a `TrieNode`. -/
def TrieNode.isEnd : TrieNode → Bool
  | .mk _ e => e

/-- `new TrieNode()`: empty children map, `isEnd = false`. -/
def TrieNode.new : TrieNode := .mk [] false

/-- JS object read `node.children[ch]` on the insertion-ordered map. -/
def lookupChild : List (Char × TrieNode) → Char → Option TrieNode
  | [], _ => none
  | (c, n) :: rest, d => if c = d then some n else lookupChild rest d

/-- JS object write `node.children[ch] = v`: overwrite in place if the key is
present, otherwise append the new key at the end (JS insertion order). -/
def setChild : List (Char × TrieNode) → Char → TrieNode → List (Char × TrieNode)
  | [], d, v => [(d, v)]
  | (c, n) :: rest, d, v => if c = d then (c, v) :: rest else (c, n) :: setChild rest d v

/-- The loop body of `Trie.insert` over the already-lowercased characters:
walk/create nodes for each character, then mark the final node. -/
def insertLoop : TrieNode → List Char → TrieNode
  | n, [] => .mk n.children true
  | n, c :: rest =>
      let child := (lookupChild n.children c).getD TrieNode.new
      .mk (setChild n.children c (insertLoop child rest)) n.isEnd

/-- `Trie.insert(word)` from Trie.js: iterates over `word.toLowerCase()`. -/
def insert (t : TrieNode) (word : List Char) : TrieNode :=
  insertLoop t (toLowerCase word)

/-- The prefix-descent loop of `Trie.getSuggestions`: follow `children[ch]`
for each character, `none` models the early `return []`. -/
def walk : TrieNode → List Char → Option TrieNode
  | n, [] => some n
  | n, c :: rest =>
      match lookupChild n.children c with
      | none => none
      | some m => walk m rest

mutual
/-- The `dfs(curr, path)` closure of `Trie.getSuggestions`: stop when
`results.length >= limit`; push `prefix + path` when `curr.isEnd`; then
recurse over `Object.entries(curr.children)` in insertion order. -/
def dfs (limit : Int) (pre : List Char) : TrieNode → List Char → List (List Char) → List (List Char)
  | .mk cs e, path, results =>
      if limit ≤ (results.length : Int) then results
      else dfsList limit pre cs path (if e then results ++ [pre ++ path] else results)

/-- The `for (const [ch, next] of Object.entries(curr.children))` loop of the
`dfs` closure. -/
def dfsList (limit : Int) (pre : List Char) :
    List (Char × TrieNode) → List Char → List (List Char) → List (List Char)
  | [], _, results => results
  | (c, n) :: rest, path, results =>
      dfsList limit pre rest path (dfs limit pre n (path ++ [c]) results)
end

/-- `Trie.getSuggestions(prefix, limit)` from Trie.js. -/
def getSuggestions (t : TrieNode) (pre : List Char) (limit : Int) : List (List Char) :=
  match walk t (toLowerCase pre) with
  | none => []
  | some n => dfs limit pre n [] []

/-- A trie populated by successive `insert` calls starting from `new Trie()`
(whose root is `new TrieNode()`). -/
def buildTrie (ws : List (List Char)) : TrieNode :=
  ws.foldl insert TrieNode.new

/-- The seed vocabulary preloaded by the editor (TextEditor.jsx, first
`useEffect`). -/
def seedWords : List (List Char) :=
  ["apple".data, "application".data, "appetite".data, "banana".data, "band".data,
   "banner".data, "cat".data, "cater".data, "catalog".data]

/-- The editor's trie after the preload effect. -/
def trie0 : TrieNode := buildTrie seedWords

example : getSuggestions trie0 "app".data 3 =
    ["apple".data, "application".data, "appetite".data] := by decide

example : getSuggestions trie0 "App".data 3 =
    ["Apple".data, "Application".data, "Appetite".data] := by decide

example : getSuggestions trie0 "zz".data 3 = [] := by decide

example : getSuggestions trie0 "a".data (-1) = [] := by decide

/-! ### Association-list lemmas for the children map -/

theorem lookupChild_setChild_self (cs : List (Char × TrieNode)) (d : Char) (v : TrieNode) :
    lookupChild (setChild cs d v) d = some v := by
  induction cs with
  | nil => simp [setChild, lookupChild]
  | cons p rest ih =>
      obtain ⟨c, n⟩ := p
      by_cases h : c = d
      · simp [setChild, lookupChild, h]
      · simp [setChild, lookupChild, h, ih]

theorem lookupChild_setChild_other (cs : List (Char × TrieNode)) (c d : Char) (v : TrieNode)
    (h : c ≠ d) : lookupChild (setChild cs d v) c = lookupChild cs c := by
  induction cs with
  | nil =>
      have hdc : d ≠ c := Ne.symm h
      simp [setChild, lookupChild, hdc]
  | cons p rest ih =>
      obtain ⟨c', n⟩ := p
      by_cases h1 : c' = d
      · subst h1
        have hc : c' ≠ c := Ne.symm h
        simp [setChild, lookupChild, hc]
      · by_cases h2 : c' = c
        · simp [setChild, lookupChild, h1, h2, h]
        · simp [setChild, lookupChild, h1, h2, ih]

theorem setChild_setChild (cs : List (Char × TrieNode)) (d : Char) (v w : TrieNode) :
    setChild (setChild cs d v) d w = setChild cs d w := by
  induction cs with
  | nil => simp [setChild]
  | cons p rest ih =>
      obtain ⟨c, n⟩ := p
      by_cases h : c = d
      · simp [setChild, h]
      · simp [setChild, h, ih]

theorem mem_setChild (cs : List (Char × TrieNode)) (d : Char) (v : TrieNode)
    (p : Char × TrieNode) (hp : p ∈ setChild cs d v) : p ∈ cs ∨ p = (d, v) := by
  induction cs with
  | nil =>
      simp only [setChild, List.mem_singleton] at hp
      exact Or.inr hp
  | cons q rest ih =>
      obtain ⟨c, n⟩ := q
      simp only [setChild] at hp
      split at hp
      · next heq =>
          subst heq
          rcases List.mem_cons.mp hp with h1 | h1
          · exact Or.inr h1
          · exact Or.inl (List.mem_cons_of_mem _ h1)
      · rcases List.mem_cons.mp hp with h1 | h1
        · exact Or.inl (by simp [h1])
        · rcases ih h1 with h2 | h2
          · exact Or.inl (List.mem_cons_of_mem _ h2)
          · exact Or.inr h2

theorem lookupChild_mem (cs : List (Char × TrieNode)) (c : Char) (n : TrieNode)
    (h : lookupChild cs c = some n) : (c, n) ∈ cs := by
  induction cs with
  | nil => simp [lookupChild] at h
  | cons p rest ih =>
      obtain ⟨c', n'⟩ := p
      simp only [lookupChild] at h
      split at h
      · next heq =>
          subst heq
          cases h
          exact List.mem_cons_self _ _
      · exact List.mem_cons_of_mem _ (ih h)

/-! ### C4: idempotence of insert -/

theorem insertLoop_insertLoop (l : List Char) :
    ∀ n : TrieNode, insertLoop (insertLoop n l) l = insertLoop n l := by
  induction l with
  | nil => intro n; cases n with | mk cs e => simp [insertLoop, TrieNode.children]
  | cons c rest ih =>
      intro n
      cases n with
      | mk cs e =>
          simp only [insertLoop, TrieNode.children, TrieNode.isEnd,
            lookupChild_setChild_self, Option.getD_some, ih, setChild_setChild]

/-- C4: `Trie.insert` is idempotent: inserting the same word twice produces a
trie with the same nodes, the same (ordered) children maps and the same
end-of-word flags as inserting it once; the operation is total (never throws). -/
theorem insert_idempotent (t : TrieNode) (w : List Char) :
    insert (insert t w) w = insert t w :=
  insertLoop_insertLoop (toLowerCase w) t

/-! ### Character-level facts about lowercasing -/

theorem char_toNat_ofNat_valid {n : Nat} (h : n.isValidChar) : (Char.ofNat n).toNat = n := by
  rw [Char.ofNat, dif_pos h]
  rfl

theorem isUpper_iff_toNat (c : Char) : c.isUpper = true ↔ 65 ≤ c.toNat ∧ c.toNat ≤ 90 := by
  simp only [Char.isUpper, Bool.and_eq_true, decide_eq_true_eq, ge_iff_le,
    UInt32.le_def, BitVec.le_def]
  constructor
  · rintro ⟨h1, h2⟩
    exact ⟨h1, h2⟩
  · rintro ⟨h1, h2⟩
    exact ⟨h1, h2⟩

theorem toLower_isUpper_false (c : Char) : (Char.toLower c).isUpper = false := by
  rw [Char.toLower]
  by_cases h : c.toNat ≥ 65 ∧ c.toNat ≤ 90
  · rw [if_pos h]
    have hv : (c.toNat + 32).isValidChar := Or.inl (by omega)
    have ht : (Char.ofNat (c.toNat + 32)).toNat = c.toNat + 32 := char_toNat_ofNat_valid hv
    by_cases hu : (Char.ofNat (c.toNat + 32)).isUpper = true
    · exfalso
      obtain ⟨h1, h2⟩ := (isUpper_iff_toNat _).mp hu
      omega
    · simpa using hu
  · rw [if_neg h]
    by_cases hu : c.isUpper = true
    · exfalso
      exact h ⟨((isUpper_iff_toNat c).mp hu).1, ((isUpper_iff_toNat c).mp hu).2⟩
    · simpa using hu

/-! ### Induction principle for the nested trie type -/

theorem TrieNode.ind {P : TrieNode → Prop}
    (h : ∀ cs e, (∀ p ∈ cs, P p.2) → P (.mk cs e)) : ∀ t, P t
  | .mk cs e => h cs e (fun p hp => TrieNode.ind h p.2)
termination_by t => sizeOf t
decreasing_by
  have h1 : sizeOf p < sizeOf cs := List.sizeOf_lt_of_mem hp
  cases p with
  | mk c n =>
      simp at h1 ⊢
      omega

/-! ### Reachability along children edges -/

/-- `Reach t q n`: starting at node `t`, following the child edges labelled by
the characters of `q` (in order) can end at node `n`. This is the set of
paths the `dfs` traversal of `getSuggestions` explores. -/
inductive Reach : TrieNode → List Char → TrieNode → Prop where
  | refl (t : TrieNode) : Reach t [] t
  | step {t : TrieNode} {c : Char} {n m : TrieNode} {q : List Char} :
      (c, n) ∈ t.children → Reach n q m → Reach t (c :: q) m

/-! ### Behaviour of the dfs collector -/

/-- Every run of `dfs` only appends to the accumulated results, and each
appended string is `prefix + path + q` for a reachable end-of-word node. -/
def DfsSpec (limit : Int) (pre : List Char) (t : TrieNode) : Prop :=
  ∀ path rs, ∃ extra, dfs limit pre t path rs = rs ++ extra ∧
    ∀ x ∈ extra, ∃ q m, Reach t q m ∧ m.isEnd = true ∧ x = pre ++ (path ++ q)

theorem dfsList_spec_of (limit : Int) (pre : List Char) (cs : List (Char × TrieNode))
    (IH : ∀ p ∈ cs, DfsSpec limit pre p.2) :
    ∀ path rs, ∃ extra, dfsList limit pre cs path rs = rs ++ extra ∧
      ∀ x ∈ extra, ∃ c n q m, (c, n) ∈ cs ∧ Reach n q m ∧ m.isEnd = true ∧
        x = pre ++ (path ++ (c :: q)) := by
  induction cs with
  | nil =>
      intro path rs
      exact ⟨[], by simp [dfsList], by simp⟩
  | cons p rest ih =>
      intro path rs
      obtain ⟨c, n⟩ := p
      obtain ⟨e1, he1, hp1⟩ := IH (c, n) (List.mem_cons_self _ _) (path ++ [c]) rs
      obtain ⟨e2, he2, hp2⟩ :=
        ih (fun p hp => IH p (List.mem_cons_of_mem _ hp)) path (rs ++ e1)
      refine ⟨e1 ++ e2, ?_, ?_⟩
      · simp [dfsList, he1, he2]
      · intro x hx
        rcases List.mem_append.mp hx with hx | hx
        · obtain ⟨q, m, hr, hm, hxe⟩ := hp1 x hx
          exact ⟨c, n, q, m, List.mem_cons_self _ _, hr, hm, by simp [hxe]⟩
        · obtain ⟨c', n', q, m, hmem, hr, hm, hxe⟩ := hp2 x hx
          exact ⟨c', n', q, m, List.mem_cons_of_mem _ hmem, hr, hm, hxe⟩

theorem dfs_spec (limit : Int) (pre : List Char) : ∀ t, DfsSpec limit pre t := by
  refine TrieNode.ind ?_
  intro cs e IH path rs
  by_cases hg : limit ≤ (rs.length : Int)
  · exact ⟨[], by simp [dfs, hg], by simp⟩
  · cases e with
    | true =>
        obtain ⟨e2, he2, hp2⟩ := dfsList_spec_of limit pre cs IH path (rs ++ [pre ++ path])
        refine ⟨[pre ++ path] ++ e2, ?_, ?_⟩
        · simp only [dfs, if_neg hg]
          simp [he2]
        · intro x hx
          rcases List.mem_append.mp hx with hx | hx
          · refine ⟨[], .mk cs true, Reach.refl _, rfl, ?_⟩
            simp at hx
            simp [hx]
          · obtain ⟨c, n, q, m, hmem, hr, hm, hxe⟩ := hp2 x hx
            exact ⟨c :: q, m, Reach.step hmem hr, hm, hxe⟩
    | false =>
        obtain ⟨e2, he2, hp2⟩ := dfsList_spec_of limit pre cs IH path rs
        refine ⟨e2, ?_, ?_⟩
        · simp only [dfs, if_neg hg]
          simpa using he2
        · intro x hx
          obtain ⟨c, n, q, m, hmem, hr, hm, hxe⟩ := hp2 x hx
          exact ⟨c :: q, m, Reach.step hmem hr, hm, hxe⟩

/-- `dfs` never grows the result list beyond `limit`. -/
def DfsLen (limit : Int) (pre : List Char) (t : TrieNode) : Prop :=
  ∀ path rs, (rs.length : Int) ≤ limit → ((dfs limit pre t path rs).length : Int) ≤ limit

theorem dfsList_len_of (limit : Int) (pre : List Char) (cs : List (Char × TrieNode))
    (IH : ∀ p ∈ cs, DfsLen limit pre p.2) :
    ∀ path rs, (rs.length : Int) ≤ limit →
      ((dfsList limit pre cs path rs).length : Int) ≤ limit := by
  induction cs with
  | nil =>
      intro path rs h
      simpa [dfsList] using h
  | cons p rest ih =>
      intro path rs h
      obtain ⟨c, n⟩ := p
      simp only [dfsList]
      exact ih (fun p hp => IH p (List.mem_cons_of_mem _ hp)) path _
        (IH (c, n) (List.mem_cons_self _ _) (path ++ [c]) rs h)

theorem dfs_len (limit : Int) (pre : List Char) : ∀ t, DfsLen limit pre t := by
  refine TrieNode.ind ?_
  intro cs e IH path rs h
  by_cases hg : limit ≤ (rs.length : Int)
  · simpa [dfs, hg] using h
  · simp only [dfs, if_neg hg]
    apply dfsList_len_of limit pre cs IH path
    cases e with
    | true =>
        have h1 : ((rs ++ [pre ++ path]).length : Int) ≤ limit := by
          simp only [List.length_append, List.length_cons, List.length_nil]
          push_cast
          omega
        simpa using h1
    | false => simpa using h

/-! ### C2: getSuggestions shape -/

/-- C2: for every trie, prefix and (nonnegative, per the interface contract
`limit : integer ≥ 0`) limit, `getSuggestions` returns `[]` when the descent
over the lowercased prefix falls off the trie, and otherwise returns at most
`limit` strings, each of which begins with the prefix as passed. -/
theorem getSuggestions_spec (t : TrieNode) (pre : List Char) (limit : Nat) :
    (walk t (toLowerCase pre) = none → getSuggestions t pre (limit : Int) = []) ∧
    (getSuggestions t pre (limit : Int)).length ≤ limit ∧
    ∀ r ∈ getSuggestions t pre (limit : Int), ∃ q, r = pre ++ q := by
  refine ⟨?_, ?_, ?_⟩
  · intro hw
    simp [getSuggestions, hw]
  · unfold getSuggestions
    cases hw : walk t (toLowerCase pre) with
    | none => simp
    | some n =>
        have h := dfs_len (limit : Int) pre n [] [] (by simp)
        exact_mod_cast h
  · intro r hr
    cases hw : walk t (toLowerCase pre) with
    | none =>
        have heq : getSuggestions t pre (limit : Int) = [] := by simp [getSuggestions, hw]
        rw [heq] at hr
        simp at hr
    | some n =>
        have heq : getSuggestions t pre (limit : Int) = dfs (limit : Int) pre n [] [] := by
          simp [getSuggestions, hw]
        rw [heq] at hr
        obtain ⟨extra, he, hp⟩ := dfs_spec (limit : Int) pre n [] []
        rw [he] at hr
        simp only [List.nil_append] at hr
        obtain ⟨q, m, _, _, hxe⟩ := hp r hr
        exact ⟨q, by simpa using hxe⟩

/-- Witness for C2 at a concrete no-path prefix. -/
theorem getSuggestions_spec_witness :
    (walk trie0 (toLowerCase "zz".data) = none → getSuggestions trie0 "zz".data (3 : Nat) = []) ∧
    (getSuggestions trie0 "zz".data ((3 : Nat) : Int)).length ≤ 3 ∧
    ∀ r ∈ getSuggestions trie0 "zz".data ((3 : Nat) : Int), ∃ q, r = "zz".data ++ q :=
  getSuggestions_spec trie0 "zz".data 3

/-! ### C9: negative limit -/

/-- With a non-positive limit the dfs guard fires immediately, so the result
list is empty: no exception or error signal exists on this path. -/
theorem getSuggestions_nonpos_limit (t : TrieNode) (pre : List Char) (limit : Int)
    (h : limit ≤ 0) : getSuggestions t pre limit = [] := by
  unfold getSuggestions
  cases hw : walk t (toLowerCase pre) with
  | none => rfl
  | some n =>
      cases n with
      | mk cs e => simp [dfs, h]

/-- Witness for the amended C9 at a concrete negative limit. -/
theorem getSuggestions_nonpos_limit_witness :
    (-1 : Int) ≤ 0 ∧ getSuggestions trie0 "a".data (-1) = [] :=
  ⟨by decide, getSuggestions_nonpos_limit trie0 "a".data (-1) (by decide)⟩

/-- Counterexample to C9 as stated: calling `getSuggestions` with the negative
limit `-1` returns the ordinary value `[]` through the normal return path
(the source contains no throw or error signal at all), rather than failing
fast with an invalid-argument signal. -/
theorem getSuggestions_neg_limit_returns_normally :
    getSuggestions trie0 "a".data (-1) = ([] : List (List Char)) := by decide

/-! ### C3: an inserted word is suggested for itself -/

/-- The node reached by `walk t l` exists and carries the end-of-word flag. -/
def marked (t : TrieNode) (l : List Char) : Prop :=
  ∃ n, walk t l = some n ∧ n.isEnd = true

theorem marked_insertLoop_self (l : List Char) : ∀ t, marked (insertLoop t l) l := by
  induction l with
  | nil => intro t; exact ⟨.mk t.children true, rfl, rfl⟩
  | cons c rest ih =>
      intro t
      obtain ⟨n, hw, he⟩ := ih ((lookupChild t.children c).getD TrieNode.new)
      refine ⟨n, ?_, he⟩
      simp only [insertLoop, walk, TrieNode.children, lookupChild_setChild_self]
      exact hw

theorem marked_insertLoop_preserve (l : List Char) :
    ∀ (t : TrieNode) (l' : List Char), marked t l → marked (insertLoop t l') l := by
  induction l with
  | nil =>
      intro t l' h
      obtain ⟨n, hw, he⟩ := h
      have ht : t.isEnd = true := by
        cases hw
        exact he
      cases l' with
      | nil => exact ⟨.mk t.children true, rfl, rfl⟩
      | cons c' rest' =>
          refine ⟨.mk (setChild t.children c' (insertLoop ((lookupChild t.children c').getD TrieNode.new) rest')) t.isEnd, rfl, ?_⟩
          simpa [TrieNode.isEnd] using ht
  | cons c rest ih =>
      intro t l' h
      cases t with
      | mk cs0 e0 =>
          obtain ⟨n, hw, he⟩ := h
          simp only [walk, TrieNode.children] at hw
          cases hm : lookupChild cs0 c with
          | none => rw [hm] at hw; cases hw
          | some m =>
              rw [hm] at hw
              cases l' with
              | nil =>
                  refine ⟨n, ?_, he⟩
                  simp only [insertLoop, walk, TrieNode.children, hm]
                  exact hw
              | cons c' rest' =>
                  by_cases hcc : c = c'
                  · subst hcc
                    obtain ⟨n2, hw2, he2⟩ := ih m rest' ⟨n, hw, he⟩
                    refine ⟨n2, ?_, he2⟩
                    simp only [insertLoop, walk, TrieNode.children, lookupChild_setChild_self,
                      hm, Option.getD_some]
                    exact hw2
                  · refine ⟨n, ?_, he⟩
                    simp only [insertLoop, walk, TrieNode.children,
                      lookupChild_setChild_other _ _ _ _ hcc, hm]
                    exact hw

theorem marked_foldl (w : List Char) :
    ∀ (ws : List (List Char)) (t : TrieNode),
      marked t (toLowerCase w) ∨ w ∈ ws →
      marked (ws.foldl insert t) (toLowerCase w) := by
  intro ws
  induction ws with
  | nil =>
      rintro t (h | h)
      · exact h
      · cases h
  | cons w' rest ih =>
      rintro t (h | h)
      · exact ih _ (Or.inl (marked_insertLoop_preserve _ _ _ h))
      · rcases List.mem_cons.mp h with rfl | h2
        · exact ih _ (Or.inl (marked_insertLoop_self _ _))
        · exact ih _ (Or.inr h2)

theorem marked_buildTrie (ws : List (List Char)) (w : List Char) (hw : w ∈ ws) :
    marked (buildTrie ws) (toLowerCase w) :=
  marked_foldl w ws TrieNode.new (Or.inr hw)

/-- C3: a word `w` inserted into the trie (in any position of the insertion
sequence) is contained in `getSuggestions` queried with prefix `w` itself and
any limit `≥ 1`. -/
theorem suggest_contains_inserted (ws : List (List Char)) (w : List Char) (limit : Int)
    (hw : w ∈ ws) (hl : 1 ≤ limit) : w ∈ getSuggestions (buildTrie ws) w limit := by
  obtain ⟨n, hwalk, hend⟩ := marked_buildTrie ws w hw
  have heq : getSuggestions (buildTrie ws) w limit = dfs limit w n [] [] := by
    simp [getSuggestions, hwalk]
  rw [heq]
  cases n with
  | mk cs e =>
      have he : e = true := hend
      subst he
      have hg : ¬ limit ≤ ((([] : List (List Char)).length : Int)) := by
        simp only [List.length_nil, Nat.cast_zero]
        omega
      obtain ⟨extra, hdl, _⟩ :=
        dfsList_spec_of limit w cs (fun p _ => dfs_spec limit w p.2) [] ([] ++ [w ++ []])
      simp only [dfs, if_neg hg, if_true]
      rw [hdl]
      simp

/-- Witness for C3 at a concrete inserted word and limit. -/
theorem suggest_contains_inserted_witness :
    "cat".data ∈ seedWords ∧ (1 : Int) ≤ 3 ∧
    "cat".data ∈ getSuggestions (buildTrie seedWords) "cat".data 3 :=
  ⟨by decide, by decide,
    suggest_contains_inserted seedWords "cat".data 3 (by decide) (by decide)⟩

/-! ### C10: casing of the strings returned by getSuggestions -/

/-- Every edge label reachable in the trie is a non-uppercase character (the
trie only ever stores lowercased words). -/
def LowerTrie (t : TrieNode) : Prop :=
  ∀ q m, Reach t q m → ∀ c ∈ q, c.isUpper = false

theorem lowerTrie_new : LowerTrie TrieNode.new := by
  intro q m hr c hc
  cases hr with
  | refl => cases hc
  | step hmem _ =>
      simp only [TrieNode.new, TrieNode.children] at hmem
      cases hmem

theorem lowerTrie_child {t : TrieNode} (h : LowerTrie t) {c : Char} {n : TrieNode}
    (hm : (c, n) ∈ t.children) : LowerTrie n := by
  intro q m hr d hd
  exact h (c :: q) m (Reach.step hm hr) d (List.mem_cons_of_mem _ hd)

theorem lowerTrie_key {t : TrieNode} (h : LowerTrie t) {c : Char} {n : TrieNode}
    (hm : (c, n) ∈ t.children) : c.isUpper = false :=
  h [c] n (Reach.step hm (Reach.refl n)) c (List.mem_cons_self _ _)

theorem lowerTrie_mk_of (cs : List (Char × TrieNode)) (e : Bool)
    (h : ∀ p ∈ cs, p.1.isUpper = false ∧ LowerTrie p.2) : LowerTrie (.mk cs e) := by
  intro q m hr d hd
  cases hr with
  | refl => cases hd
  | step hmem hr2 =>
      obtain ⟨hk, hlt⟩ := h _ hmem
      rcases List.mem_cons.mp hd with rfl | hd2
      · exact hk
      · exact hlt _ _ hr2 _ hd2

theorem lowerTrie_retag {cs : List (Char × TrieNode)} {e e' : Bool}
    (h : LowerTrie (.mk cs e)) : LowerTrie (.mk cs e') := by
  apply lowerTrie_mk_of
  intro p hp
  obtain ⟨c, n⟩ := p
  exact ⟨lowerTrie_key h hp, lowerTrie_child h hp⟩

theorem lowerTrie_insertLoop (l : List Char) (hl : ∀ c ∈ l, c.isUpper = false) :
    ∀ t, LowerTrie t → LowerTrie (insertLoop t l) := by
  induction l with
  | nil =>
      intro t ht
      cases t with
      | mk cs e => exact lowerTrie_retag ht
  | cons c rest ih =>
      intro t ht
      cases t with
      | mk cs e =>
          apply lowerTrie_mk_of
          intro p hp
          rcases mem_setChild _ _ _ _ hp with hmem | hpe
          · obtain ⟨c', n'⟩ := p
            exact ⟨lowerTrie_key ht hmem, lowerTrie_child ht hmem⟩
          · subst hpe
            refine ⟨hl c (List.mem_cons_self _ _), ?_⟩
            apply ih (fun d hd => hl d (List.mem_cons_of_mem _ hd))
            cases hm : lookupChild (TrieNode.children (.mk cs e)) c with
            | none => simpa [hm] using lowerTrie_new
            | some m =>
                have hmm := lowerTrie_child ht (lookupChild_mem _ _ _ hm)
                simpa [hm] using hmm

theorem lowerTrie_foldl :
    ∀ (ws : List (List Char)) (t : TrieNode), LowerTrie t →
      LowerTrie (ws.foldl insert t) := by
  intro ws
  induction ws with
  | nil => intro t h; exact h
  | cons w rest ih =>
      intro t h
      apply ih
      apply lowerTrie_insertLoop
      · intro c hc
        obtain ⟨d, _, rfl⟩ := List.mem_map.mp hc
        exact toLower_isUpper_false d
      · exact h

theorem lowerTrie_buildTrie (ws : List (List Char)) : LowerTrie (buildTrie ws) :=
  lowerTrie_foldl ws TrieNode.new lowerTrie_new

theorem reach_of_walk : ∀ (l : List Char) (t n : TrieNode), walk t l = some n → Reach t l n := by
  intro l
  induction l with
  | nil =>
      intro t n h
      cases h
      exact Reach.refl t
  | cons c rest ih =>
      intro t n h
      cases t with
      | mk cs e =>
          simp only [walk, TrieNode.children] at h
          cases hm : lookupChild cs c with
          | none => rw [hm] at h; cases h
          | some m =>
              rw [hm] at h
              exact Reach.step (lookupChild_mem _ _ _ hm) (ih m n h)

theorem lowerTrie_reach {t : TrieNode} {q : List Char} {m : TrieNode}
    (h : LowerTrie t) (hr : Reach t q m) : LowerTrie m := by
  induction hr with
  | refl => exact h
  | step hmem _ ih => exact ih (lowerTrie_child h hmem)

/-- C10: every string returned by `getSuggestions` is the prefix argument
exactly as passed, followed by a suffix containing no uppercase characters;
hence for a prefix with an uppercase letter the result never equals any of the
lowercased words the trie actually stores. -/
theorem getSuggestions_casing (ws : List (List Char)) (pre : List Char) (limit : Int)
    (r : List Char) (hr : r ∈ getSuggestions (buildTrie ws) pre limit) :
    (∃ q, r = pre ++ q ∧ ∀ c ∈ q, c.isUpper = false) ∧
    ((∃ c ∈ pre, c.isUpper = true) → ∀ w ∈ ws, r ≠ toLowerCase w) := by
  have hmain : ∃ q, r = pre ++ q ∧ ∀ c ∈ q, c.isUpper = false := by
    cases hw : walk (buildTrie ws) (toLowerCase pre) with
    | none =>
        have heq : getSuggestions (buildTrie ws) pre limit = [] := by
          simp [getSuggestions, hw]
        rw [heq] at hr
        cases hr
    | some n =>
        have heq : getSuggestions (buildTrie ws) pre limit = dfs limit pre n [] [] := by
          simp [getSuggestions, hw]
        rw [heq] at hr
        obtain ⟨extra, he, hp⟩ := dfs_spec limit pre n [] []
        rw [he] at hr
        simp only [List.nil_append] at hr
        obtain ⟨q, m, hreach, _, hxe⟩ := hp r hr
        have hlt : LowerTrie n :=
          lowerTrie_reach (lowerTrie_buildTrie ws) (reach_of_walk _ _ _ hw)
        refine ⟨q, by simpa using hxe, ?_⟩
        exact hlt q m hreach
  refine ⟨hmain, ?_⟩
  rintro ⟨c, hc, hcu⟩ w hwmem heq
  obtain ⟨q, hrq, _⟩ := hmain
  have hcr : c ∈ r := by
    rw [hrq]
    exact List.mem_append_left _ hc
  rw [heq] at hcr
  obtain ⟨d, _, hd⟩ := List.mem_map.mp hcr
  rw [← hd] at hcu
  rw [toLower_isUpper_false d] at hcu
  cases hcu

/-- Witness for C10 at the seed vocabulary with an uppercased prefix. -/
theorem getSuggestions_casing_witness :
    "Apple".data ∈ getSuggestions (buildTrie seedWords) "App".data 3 ∧
    ((∃ q, "Apple".data = "App".data ++ q ∧ ∀ c ∈ q, c.isUpper = false) ∧
      ((∃ c ∈ "App".data, c.isUpper = true) →
        ∀ w ∈ seedWords, "Apple".data ≠ toLowerCase w)) :=
  ⟨by decide, getSuggestions_casing seedWords "App".data 3 "Apple".data (by decide)⟩

/-! ### PatternMatcher (KMP)

`KMP.js` is imported by TextEditor.jsx but is not part of the exposed source
tree, so `kmpSearch` is modelled from the spec (§4.2): a partial-match
(failure) table holding, for each prefix length, the length of the longest
proper prefix of that pattern prefix that is also its suffix; and a
left-to-right scan that maintains the current matched-prefix length, falls
back through the table on mismatch, and on a full match records the start
offset and continues from the table value (allowing overlaps). -/

/-- Modelled from the spec: the KMP partial-match table. `failAt p j` is the
length of the longest proper prefix of `p.take j` that is also a suffix of
it (spec §4.2: "for each prefix length k of pattern, the length of the
longest proper prefix of pattern[0..k) that is also a suffix of it"). -/
def failAt (p : List Char) (j : Nat) : Nat :=
  Nat.findGreatest (fun k => p.take k <:+ p.take j) (j - 1)

theorem failAt_lt {p : List Char} {j : Nat} (h : j ≠ 0) : failAt p j < j := by
  have hle : failAt p j ≤ j - 1 := Nat.findGreatest_le _
  omega

/-- Fuel-indexed form of the mismatch fallback loop; `j` itself is enough
fuel because `failAt p j < j` whenever `j ≠ 0`. -/
def fallbackFuel (p : List Char) (c : Char) : Nat → Nat → Nat
  | 0, j => j
  | fuel + 1, j => if j ≠ 0 ∧ p[j]? ≠ some c then fallbackFuel p c fuel (failAt p j) else j

/-- Modelled from the spec: "on mismatch, fall back j to the failure-table
value instead of restarting from zero". -/
def fallback (p : List Char) (c : Char) (j : Nat) : Nat := fallbackFuel p c j j

theorem fallbackFuel_congr (p : List Char) (c : Char) :
    ∀ (f1 : Nat) (f2 j : Nat), j ≤ f1 → j ≤ f2 →
      fallbackFuel p c f1 j = fallbackFuel p c f2 j := by
  intro f1
  induction f1 with
  | zero =>
      intro f2 j h1 h2
      interval_cases j
      cases f2 with
      | zero => rfl
      | succ f2 => simp [fallbackFuel]
  | succ f1 ih =>
      intro f2 j h1 h2
      by_cases hc : j ≠ 0 ∧ p[j]? ≠ some c
      · have hlt : failAt p j < j := failAt_lt hc.1
        cases f2 with
        | zero => omega
        | succ f2 =>
            simp only [fallbackFuel, if_pos hc]
            exact ih f2 (failAt p j) (by omega) (by omega)
      · cases f2 with
        | zero =>
            have hj : j = 0 := by omega
            subst hj
            rfl
        | succ f2 => simp only [fallbackFuel, if_neg hc]

/-- The defining unfolding of `fallback`. -/
theorem fallback_eq (p : List Char) (c : Char) (j : Nat) :
    fallback p c j = if j ≠ 0 ∧ p[j]? ≠ some c then fallback p c (failAt p j) else j := by
  cases j with
  | zero => simp [fallback, fallbackFuel]
  | succ j =>
      by_cases hc : j + 1 ≠ 0 ∧ p[j + 1]? ≠ some c
      · have hlt : failAt p (j + 1) < j + 1 := failAt_lt hc.1
        simp only [fallback, fallbackFuel, if_pos hc]
        exact fallbackFuel_congr p c j (failAt p (j + 1)) (failAt p (j + 1)) (by omega) le_rfl
      · simp only [fallback, fallbackFuel, if_neg hc]

/-- One scan step of the matcher: advance the matched-prefix length `j` by
the next text character `c` (fall back, then extend on a character match). -/
def kmpStep (p : List Char) (c : Char) (j : Nat) : Nat :=
  if p[fallback p c j]? = some c then fallback p c j + 1 else fallback p c j

/-- Modelled from the spec: the left-to-right scan. `i` counts the text
characters already consumed; on the matched-prefix length reaching
`p.length`, the match start `i + 1 - p.length` is recorded and scanning
continues from the failure-table value for a full match. -/
def kmpScan (p : List Char) : List Char → Nat → Nat → List Nat
  | [], _, _ => []
  | c :: rest, i, j =>
      if kmpStep p c j = p.length then
        (i + 1 - p.length) :: kmpScan p rest (i + 1) (failAt p p.length)
      else kmpScan p rest (i + 1) (kmpStep p c j)

/-- Modelled from the spec: `findAll(text, pattern)` (exported to
TextEditor.jsx as `kmpSearch(text, pattern)`): the empty pattern yields an
empty match list; otherwise the failure-function scan runs over the text. -/
def kmpSearch (text pat : List Char) : List Nat :=
  if pat = [] then [] else kmpScan pat text 0 0

example : kmpSearch "banana bandana band".data "ban".data = [0, 7, 15] := by decide

example : kmpSearch "aaaa".data "aa".data = [0, 1, 2] := by decide

example : kmpSearch "abc".data "".data = [] := by decide

/-! ### SpellCorrector (spec §4.3; SpellChecker.js is not in the exposed source) -/

/-- Modelled from the spec (§4.3, glossary): classic edit distance — the
minimum number of single-character insertions, deletions and substitutions
transforming one string into the other (unit costs). -/
def editDistance (xs ys : List Char) : Nat :=
  levenshtein Levenshtein.defaultCost xs ys

/-- Modelled from the spec (§4.3): `correct(word, vocabulary, maxDistance)` —
a word already in the vocabulary (case-insensitively) is returned unchanged;
otherwise the vocabulary word with the smallest edit distance to the
lowercased word is returned (ties broken by first position in the fixed
enumeration order of the vocabulary), unless that smallest distance exceeds
`maxDistance`, in which case the word is returned unchanged. -/
def correct (word : List Char) (vocab : List (List Char)) (maxDistance : Nat) : List Char :=
  let w := toLowerCase word
  if w ∈ vocab.map toLowerCase then word
  else
    let best := vocab.foldl
      (fun acc v =>
        match acc with
        | none => some v
        | some b =>
            if editDistance w (toLowerCase v) < editDistance w (toLowerCase b) then some v
            else acc)
      none
    match best with
    | none => word
    | some b => if editDistance w (toLowerCase b) ≤ maxDistance then b else word

/-- Modelled from the spec: the editor's `getCorrection(word)` — the
SpellCorrector over the same vocabulary as the WordIndex (spec §3) with the
recommended default threshold 2 (spec §4.3/§6). -/
def getCorrection (word : List Char) : List Char := correct word seedWords 2

example : getCorrection "catt".data = "cat".data := by decide

example : getCorrection "banana".data = "banana".data := by decide

example : getCorrection "xyzxyz".data = "xyzxyz".data := by decide

/-! ### EditingSession: the TextEditor.jsx handlers -/

/-- The ASCII members of the JS `\s` (and `String.prototype.trim`) whitespace
class: tab, line feed, vertical tab, form feed, carriage return and space.
JS additionally treats some non-ASCII code points (NBSP, BOM, Unicode space
separators) as whitespace; those fall under the spec's Unicode non-goal. -/
def isWs (c : Char) : Bool :=
  c = '\t' || c = '\n' || c = '\x0b' || c = '\x0c' || c = '\r' || c = ' '

/-- `value.split(/\s+/)` followed by taking the last element (TextEditor.jsx
`handleTextChange`): the maximal run of non-whitespace characters at the end
of the string. It is empty exactly when the string is empty or ends in
whitespace (JS `split` then yields a trailing empty token). -/
def lastToken (value : List Char) : List Char :=
  (value.reverse.takeWhile (fun c => !isWs c)).reverse

/-- The characters that are syntax in a JavaScript regular expression. A
token free of them denotes itself literally inside `new RegExp(last + "$")`. -/
def regexSpecials : List Char :=
  ['\\', '^', '$', '.', '|', '?', '*', '+', '(', ')', '[', ']', '\x7b', '\x7d']

/-- Whether a token consists only of regex-literal characters. -/
def regexLiteralToken (s : List Char) : Bool :=
  s.all (fun c => !(regexSpecials.contains c))

/-- Model of `value.replace(new RegExp(last + "$"), corrected)` for a
regex-literal token `last`: the anchored pattern matches exactly a trailing
occurrence of `last`; if present it is replaced, otherwise nothing changes. -/
def replaceEnd (value last corrected : List Char) : List Char :=
  if last <:+ value then value.take (value.length - last.length) ++ corrected else value

/-- `handleTextChange` from TextEditor.jsx, parameterised by the corrector
(`getCorrection` lives in the absent `SpellChecker.js`). Returns
`(new text, new suggestions)`. Splitting on whitespace and taking the last
token, a token longer than 2 characters is sent to the corrector; a
differing correction is applied with `value.replace(new RegExp(last + "$"),
corrected)`, and the trie is queried with the same token and limit 3. When
the token contains regex syntax characters, or the replacement string
contains `$`, the JS `RegExp`/`replace` semantics fall outside this model
(e.g. `new RegExp("ca($")` raises `SyntaxError: unterminated group` in JS);
the model signals those inputs as `Except.error`. -/
def handleTextChange (corrector : List Char → List Char) (trie : TrieNode)
    (value : List Char) : Except (List Char) (List Char × List (List Char)) :=
  let last := lastToken value
  if 2 < last.length then
    let corrected := corrector last
    if corrected ≠ last then
      if regexLiteralToken last ∧ ¬ '$' ∈ corrected then
        Except.ok (replaceEnd value last corrected, getSuggestions trie last 3)
      else Except.error last
    else Except.ok (value, getSuggestions trie last 3)
  else Except.ok (value, [])

example : lastToken "x\x0bcatt".data = "catt".data := by decide

example : handleTextChange getCorrection trie0 "x\x0bcatt".data =
    Except.ok ("x\x0bcat".data, getSuggestions trie0 "catt".data 3) := by rfl

/-- JS `String.prototype.trim`, modelled on `List Char`. -/
def trimWs (s : List Char) : List Char :=
  ((s.dropWhile isWs).reverse.dropWhile isWs).reverse

example : trimWs "\x0b".data = [] := by decide

/-- The KMP-search `useEffect` of TextEditor.jsx: when the pattern is empty
after trimming, clear the matches and set the current index to -1; otherwise
run `kmpSearch` and set the index to 0 when matches exist, -1 otherwise.
Result: `(matches, current)`. -/
def searchUpdate (text pat : List Char) : List Nat × Int :=
  if trimWs pat = [] then ([], -1)
  else
    let m := kmpSearch text pat
    (m, if m.length ≠ 0 then 0 else -1)

/-- The Prev button of TextEditor.jsx:
`setCurrent(c => matches.length ? (c - 1 + matches.length) % matches.length : -1)`.
For the operands arising in the claim (`0 ≤ c < n`) the JS remainder on
nonnegative arguments coincides with `Int.emod`. -/
def prevClick (n : Nat) (c : Int) : Int :=
  if n ≠ 0 then (c - 1 + n) % n else -1

/-- The Next button of TextEditor.jsx:
`setCurrent(c => matches.length ? (c + 1) % matches.length : -1)`. -/
def nextClick (n : Nat) (c : Int) : Int :=
  if n ≠ 0 then (c + 1) % n else -1

/-! ### C5 / C8: behaviour of handleTextChange -/

theorem lastToken_suffix (value : List Char) : lastToken value <:+ value := by
  have h : value.reverse.takeWhile (fun c => !isWs c) <+: value.reverse :=
    List.takeWhile_prefix _
  have h2 := List.reverse_suffix.mpr h
  rwa [List.reverse_reverse] at h2

/-- C5 (amended): on a text change whose last whitespace-separated token is
longer than 2 characters, provided the corrector leaves the token unchanged
or the token and correction are regex-replacement-literal (no regex syntax
characters in the token, no `$` in the correction), the handler returns the
text with the trailing token occurrence replaced by the correction exactly
when the correction differs, paired with the trie suggestions for that same
token with limit 3. -/
theorem handleTextChange_spec (corrector : List Char → List Char) (trie : TrieNode)
    (value : List Char)
    (hlen : 2 < (lastToken value).length)
    (hsafe : corrector (lastToken value) = lastToken value ∨
      (regexLiteralToken (lastToken value) = true ∧ ¬ '$' ∈ corrector (lastToken value))) :
    handleTextChange corrector trie value =
      Except.ok
        (if corrector (lastToken value) = lastToken value then value
         else value.take (value.length - (lastToken value).length) ++ corrector (lastToken value),
         getSuggestions trie (lastToken value) 3) := by
  have hsuf : lastToken value <:+ value := lastToken_suffix value
  by_cases hco : corrector (lastToken value) = lastToken value
  · simp [handleTextChange, hlen, hco]
  · rcases hsafe with h | ⟨h1, h2⟩
    · exact absurd h hco
    · simp [handleTextChange, hlen, hco, h1, h2, replaceEnd, hsuf]

/-- Witness for the amended C5 at the concrete text "i like catt". -/
theorem handleTextChange_spec_witness :
    2 < (lastToken "i like catt".data).length ∧
    (getCorrection (lastToken "i like catt".data) = lastToken "i like catt".data ∨
      (regexLiteralToken (lastToken "i like catt".data) = true ∧
        ¬ '$' ∈ getCorrection (lastToken "i like catt".data))) ∧
    handleTextChange getCorrection trie0 "i like catt".data =
      Except.ok
        (if getCorrection (lastToken "i like catt".data) = lastToken "i like catt".data
          then "i like catt".data
          else ("i like catt".data).take
              (("i like catt".data).length - (lastToken "i like catt".data).length) ++
              getCorrection (lastToken "i like catt".data),
         getSuggestions trie0 (lastToken "i like catt".data) 3) :=
  ⟨by decide, Or.inr (by decide),
    handleTextChange_spec getCorrection trie0 "i like catt".data (by decide)
      (Or.inr (by decide))⟩

/-- Counterexample to C5 as stated: for the text "ca(" the last token "ca("
has length 3 > 2 and the (spec-modelled) corrector proposes "cat" ≠ "ca(",
yet the handler does not replace the token and does not produce suggestions:
the code constructs `new RegExp("ca($")`, which raises `SyntaxError:
unterminated group` in JS (the model signals exactly this case as an error). -/
theorem handleTextChange_regex_cex :
    2 < (lastToken "ca(".data).length ∧
    getCorrection (lastToken "ca(".data) = "cat".data ∧
    getCorrection (lastToken "ca(".data) ≠ lastToken "ca(".data ∧
    handleTextChange getCorrection trie0 "ca(".data = Except.error "ca(".data := by
  refine ⟨by decide, by decide, by decide, by rfl⟩

/-- C8: at the concrete text "cat(" the text-change handler does not complete
with a fallback result: the last token "cat(" is longer than 2 characters,
the (spec-modelled) correction "cat" differs, and the code then evaluates
`new RegExp("cat($")`, which throws `SyntaxError` in JS instead of returning
— contradicting the spec's no-throw guarantee (§7). The model signals this
input as an error value. -/
theorem handleTextChange_throws :
    2 < (lastToken "cat(".data).length ∧
    getCorrection "cat(".data = "cat".data ∧
    handleTextChange getCorrection trie0 "cat(".data = Except.error "cat(".data := by
  refine ⟨by decide, by decide, by rfl⟩

/-! ### C6: empty pattern resets the search state -/

/-- C6: whenever the search pattern trims to the empty string, the effect
sets the match list to `[]` and the current index to the sentinel -1. -/
theorem searchUpdate_empty_pattern (text pat : List Char) (h : trimWs pat = []) :
    searchUpdate text pat = ([], -1) := by
  simp [searchUpdate, h]

/-- Witness for C6 with a whitespace-only pattern (space, vertical tab and
form feed, all removed by JS `trim`). -/
theorem searchUpdate_empty_pattern_witness :
    trimWs " \x0b\x0c".data = [] ∧ searchUpdate "banana band".data " \x0b\x0c".data = ([], -1) :=
  ⟨by decide, searchUpdate_empty_pattern "banana band".data " \x0b\x0c".data (by decide)⟩

/-! ### C7: cyclic navigation -/

/-- C7: with `n` matches and a current index `0 ≤ c < n`, Next advances to
`(c + 1) mod n` and Prev to `(c - 1 + n) mod n` (both staying in `[0, n)`,
stepping by one and wrapping at the ends), and with zero matches both
buttons yield the sentinel -1 from every current index — in particular from
the sentinel -1 itself, so the index stays there. -/
theorem navigation_cyclic (n : Nat) (c : Int) (h0 : 0 ≤ c) (hn : c < (n : Int)) :
    nextClick n c = (c + 1) % (n : Int) ∧
    prevClick n c = (c - 1 + n) % (n : Int) ∧
    (0 ≤ nextClick n c ∧ nextClick n c < (n : Int)) ∧
    (0 ≤ prevClick n c ∧ prevClick n c < (n : Int)) ∧
    (c + 1 < (n : Int) → nextClick n c = c + 1) ∧
    (c + 1 = (n : Int) → nextClick n c = 0) ∧
    (0 < c → prevClick n c = c - 1) ∧
    (c = 0 → prevClick n c = (n : Int) - 1) ∧
    (∀ d : Int, nextClick 0 d = -1 ∧ prevClick 0 d = -1) := by
  have hn0 : n ≠ 0 := by omega
  have hnz : (n : Int) ≠ 0 := by exact_mod_cast hn0
  have hnpos : (0 : Int) < n := by omega
  have hnext : nextClick n c = (c + 1) % (n : Int) := by simp [nextClick, hn0]
  have hprev : prevClick n c = (c - 1 + n) % (n : Int) := by simp [prevClick, hn0]
  refine ⟨hnext, hprev, ⟨?_, ?_⟩, ⟨?_, ?_⟩, ?_, ?_, ?_, ?_, ?_⟩
  · rw [hnext]; exact Int.emod_nonneg _ hnz
  · rw [hnext]; exact Int.emod_lt_of_pos _ hnpos
  · rw [hprev]; exact Int.emod_nonneg _ hnz
  · rw [hprev]; exact Int.emod_lt_of_pos _ hnpos
  · intro h
    rw [hnext]
    exact Int.emod_eq_of_lt (by omega) h
  · intro h
    rw [hnext, h]
    exact Int.emod_self
  · intro h
    rw [hprev]
    have hrw : c - 1 + (n : Int) = c - 1 + (n : Int) * 1 := by ring
    rw [hrw, Int.add_mul_emod_self_left]
    exact Int.emod_eq_of_lt (by omega) (by omega)
  · intro h
    subst h
    rw [hprev]
    have hrw : (0 : Int) - 1 + (n : Int) = (n : Int) - 1 := by ring
    rw [hrw]
    exact Int.emod_eq_of_lt (by omega) (by omega)
  · intro d
    exact ⟨by simp [nextClick], by simp [prevClick]⟩

/-- Witness for C7 at three matches and current index 2 (the wrap case). -/
theorem navigation_cyclic_witness :
    (0 : Int) ≤ 2 ∧ (2 : Int) < ((3 : Nat) : Int) ∧
    (nextClick 3 2 = (2 + 1) % ((3 : Nat) : Int) ∧
     prevClick 3 2 = (2 - 1 + (3 : Nat)) % ((3 : Nat) : Int) ∧
     (0 ≤ nextClick 3 2 ∧ nextClick 3 2 < ((3 : Nat) : Int)) ∧
     (0 ≤ prevClick 3 2 ∧ prevClick 3 2 < ((3 : Nat) : Int)) ∧
     ((2 : Int) + 1 < ((3 : Nat) : Int) → nextClick 3 2 = 2 + 1) ∧
     ((2 : Int) + 1 = ((3 : Nat) : Int) → nextClick 3 2 = 0) ∧
     ((0 : Int) < 2 → prevClick 3 2 = 2 - 1) ∧
     ((2 : Int) = 0 → prevClick 3 2 = ((3 : Nat) : Int) - 1) ∧
     (∀ d : Int, nextClick 0 d = -1 ∧ prevClick 0 d = -1)) :=
  ⟨by decide, by decide, navigation_cyclic 3 2 (by decide) (by decide)⟩

/-! ### C1: correctness of the KMP matcher

The proof tracks, for the processed text `t`, the length of the longest
prefix of the pattern `p` that is a suffix of `t` (`mpl`), and its variant
bounded below `p.length` (`mplW`), which is the matcher's state. -/

/-- Length of the longest prefix of `p` (up to `p.length`) that is a suffix
of `t`. -/
def mpl (p t : List Char) : Nat :=
  Nat.findGreatest (fun k => p.take k <:+ t) p.length

/-- Length of the longest proper-length (`< p.length`) prefix of `p` that is
a suffix of `t`; this is the scan state maintained by `kmpScan`. -/
def mplW (p t : List Char) : Nat :=
  Nat.findGreatest (fun k => p.take k <:+ t) (p.length - 1)

theorem mpl_suffix (p t : List Char) : p.take (mpl p t) <:+ t := by
  rcases eq_or_ne (mpl p t) 0 with h | h
  · rw [h]
    simp
  · exact Nat.findGreatest_of_ne_zero (rfl : mpl p t = mpl p t) h

theorem mplW_suffix (p t : List Char) : p.take (mplW p t) <:+ t := by
  rcases eq_or_ne (mplW p t) 0 with h | h
  · rw [h]
    simp
  · exact Nat.findGreatest_of_ne_zero (rfl : mplW p t = mplW p t) h

theorem mpl_le (p t : List Char) : mpl p t ≤ p.length :=
  Nat.findGreatest_le _

theorem mplW_le (p t : List Char) : mplW p t ≤ p.length - 1 :=
  Nat.findGreatest_le _

theorem mplW_lt {p : List Char} (t : List Char) (hp : p ≠ []) : mplW p t < p.length := by
  have h1 := mplW_le p t
  have h2 : p.length ≠ 0 := by
    intro h
    exact hp (List.length_eq_zero.mp h)
  omega

theorem le_mpl {p t : List Char} {k : Nat} (hk : k ≤ p.length) (h : p.take k <:+ t) :
    k ≤ mpl p t :=
  Nat.le_findGreatest hk h

theorem le_mplW {p t : List Char} {k : Nat} (hk : k ≤ p.length - 1) (h : p.take k <:+ t) :
    k ≤ mplW p t :=
  Nat.le_findGreatest hk h

theorem mpl_eq_length_of_suffix {p t : List Char} (h : p <:+ t) : mpl p t = p.length :=
  Nat.le_antisymm (mpl_le p t) (le_mpl le_rfl (by simpa using h))

theorem suffix_of_mpl_eq_length {p t : List Char} (h : mpl p t = p.length) : p <:+ t := by
  have := mpl_suffix p t
  rwa [h, List.take_length] at this

theorem mpl_eq_mplW_of_not_suffix {p t : List Char} (hp : p ≠ []) (h : ¬ p <:+ t) :
    mpl p t = mplW p t := by
  have hlen : p.length = (p.length - 1) + 1 := by
    have : p.length ≠ 0 := by
      intro h0
      exact hp (List.length_eq_zero.mp h0)
    omega
  unfold mpl mplW
  rw [hlen, Nat.findGreatest_succ]
  rw [if_neg]
  · rw [← hlen]
  · rw [← hlen, List.take_length]
    exact h

/-- Extending a matched prefix by one matching character. -/
theorem take_suffix_snoc {p t : List Char} {k : Nat} {c : Char}
    (hk : p.take k <:+ t) (hc : p[k]? = some c) : p.take (k + 1) <:+ t ++ [c] := by
  have hkl : k < p.length := by
    by_contra hge
    rw [List.getElem?_eq_none (by omega)] at hc
    cases hc
  have ht : p.take (k + 1) = p.take k ++ [c] := by
    rw [List.take_succ, hc]
    rfl
  obtain ⟨u, hu⟩ := hk
  exact ⟨u, by rw [ht, ← List.append_assoc, hu]⟩

/-- Shrinking a matched prefix that extends past the last character. -/
theorem take_suffix_unsnoc {p t : List Char} {k : Nat} {c : Char}
    (hkl : k ≤ p.length) (hk0 : k ≠ 0) (h : p.take k <:+ t ++ [c]) :
    p.take (k - 1) <:+ t ∧ p[k - 1]? = some c := by
  have hlt : k - 1 < p.length := by omega
  have ht : p.take k = p.take (k - 1) ++ [p[k - 1]] := by
    have hk1 : k = (k - 1) + 1 := by omega
    conv_lhs => rw [hk1]
    rw [List.take_succ, List.getElem?_eq_getElem hlt]
    rfl
  obtain ⟨u, hu⟩ := h
  rw [ht, ← List.append_assoc] at hu
  have hinj := List.append_inj' hu rfl
  refine ⟨⟨u, hinj.1⟩, ?_⟩
  rw [List.getElem?_eq_getElem hlt]
  have hpc : p[k - 1] = c := by
    have h2 := hinj.2
    simpa using h2
  rw [hpc]

theorem failAt_suffix (p : List Char) (j : Nat) : p.take (failAt p j) <:+ p.take j := by
  rcases eq_or_ne (failAt p j) 0 with h | h
  · rw [h]
    simp
  · exact Nat.findGreatest_of_ne_zero (rfl : failAt p j = failAt p j) h

theorem le_failAt {p : List Char} {j k : Nat} (hk : k ≤ j - 1) (h : p.take k <:+ p.take j) :
    k ≤ failAt p j :=
  Nat.le_findGreatest hk h

/-- The heart of the KMP argument: starting from any state `j` that matches a
suffix of the processed text `t` and such that no pattern prefix longer than
`j + 1` is a suffix of `t ++ [c]`, the step function computes the length of
the longest pattern prefix that is a suffix of `t ++ [c]`. -/
theorem kmpStep_inv (p t : List Char) (c : Char) :
    ∀ j, j < p.length → p.take j <:+ t →
      (∀ k, j + 1 < k → k ≤ p.length → ¬ p.take k <:+ t ++ [c]) →
      kmpStep p c j = mpl p (t ++ [c]) := by
  intro j
  induction j using Nat.strong_induction_on with
  | _ j ih =>
      intro hjlen hsuf hmax
      by_cases hc : p[j]? = some c
      · have hfb : fallback p c j = j := by
          rw [fallback_eq, if_neg]
          simp [hc]
        have hstep : kmpStep p c j = j + 1 := by
          rw [kmpStep, hfb, if_pos hc]
        rw [hstep]
        have h1 : j + 1 ≤ mpl p (t ++ [c]) :=
          le_mpl (by omega) (take_suffix_snoc hsuf hc)
        have h2 : mpl p (t ++ [c]) ≤ j + 1 := by
          by_contra hgt
          push_neg at hgt
          exact hmax _ hgt (mpl_le _ _) (mpl_suffix p (t ++ [c]))
        omega
      · by_cases hj0 : j = 0
        · subst hj0
          have hfb : fallback p c 0 = 0 := by
            rw [fallback_eq]
            simp
          have hstep : kmpStep p c 0 = 0 := by
            rw [kmpStep, hfb, if_neg hc]
          rw [hstep]
          have hm := mpl_suffix p (t ++ [c])
          have hml := mpl_le p (t ++ [c])
          by_cases h2 : 2 ≤ mpl p (t ++ [c])
          · exact absurd hm (hmax _ (by omega) hml)
          · by_cases h1 : mpl p (t ++ [c]) = 1
            · rw [h1] at hm
              obtain ⟨_, h4⟩ := take_suffix_unsnoc (by omega) (by omega) hm
              simp only [Nat.sub_self] at h4
              exact absurd h4 hc
            · omega
        · have hfb : fallback p c j = fallback p c (failAt p j) := by
            rw [fallback_eq, if_pos ⟨hj0, hc⟩]
          have hstep : kmpStep p c j = kmpStep p c (failAt p j) := by
            rw [kmpStep, kmpStep, hfb]
          rw [hstep]
          have hflt : failAt p j < j := failAt_lt hj0
          apply ih (failAt p j) hflt (by omega)
            ((failAt_suffix p j).trans hsuf)
          intro k hk1 hk2 hks
          by_cases hkj : j + 1 < k
          · exact hmax k hkj hk2 hks
          · have hk0 : k ≠ 0 := by omega
            obtain ⟨hks', hkc⟩ := take_suffix_unsnoc hk2 hk0 hks
            by_cases hkj1 : k = j + 1
            · rw [hkj1] at hkc
              simp only [Nat.add_sub_cancel] at hkc
              exact hc hkc
            · have hkle : k ≤ j := by omega
              have hlen : (p.take (k - 1)).length ≤ (p.take j).length := by
                simp only [List.length_take]
                omega
              have hsle : p.take (k - 1) <:+ p.take j :=
                List.suffix_of_suffix_length_le hks' hsuf hlen
              have hkf : k - 1 ≤ failAt p j := le_failAt (by omega) hsle
              omega

/-- From the matcher's actual state `mplW p t`, one step computes
`mpl p (t ++ [c])`. -/
theorem kmpStep_mplW (p t : List Char) (c : Char) (hp : p ≠ []) :
    kmpStep p c (mplW p t) = mpl p (t ++ [c]) := by
  apply kmpStep_inv p t c (mplW p t) (mplW_lt t hp) (mplW_suffix p t)
  intro k hk1 hk2 hks
  have hk0 : k ≠ 0 := by omega
  obtain ⟨hks', _⟩ := take_suffix_unsnoc hk2 hk0 hks
  have hkw : k - 1 ≤ mplW p t := le_mplW (by omega) hks'
  omega

theorem findGreatest_congr_aux {P Q : Nat → Prop} [DecidablePred P] [DecidablePred Q] :
    ∀ b : Nat, (∀ k, k ≤ b → (P k ↔ Q k)) → Nat.findGreatest P b = Nat.findGreatest Q b := by
  intro b
  induction b with
  | zero => intro _; rfl
  | succ b ih =>
      intro h
      rw [Nat.findGreatest_succ, Nat.findGreatest_succ]
      by_cases hb : P (b + 1)
      · rw [if_pos hb, if_pos ((h (b + 1) le_rfl).mp hb)]
      · rw [if_neg hb, if_neg (fun hq => hb ((h (b + 1) le_rfl).mpr hq))]
        exact ih (fun k hk => h k (by omega))

/-- After a full match the scan state reset to the failure value of the whole
pattern is again the longest proper matched-prefix length. -/
theorem mplW_of_full_match {p t : List Char} (h : p <:+ t) :
    mplW p t = failAt p p.length := by
  unfold mplW failAt
  apply findGreatest_congr_aux
  intro k _
  constructor
  · intro hks
    have hlen : (p.take k).length ≤ p.length := by
      simp only [List.length_take]
      omega
    have h2 : p.take k <:+ p := List.suffix_of_suffix_length_le hks h hlen
    rwa [List.take_length]
  · intro hks
    rw [List.take_length] at hks
    exact hks.trans h

theorem mplW_nil {p : List Char} (hp : p ≠ []) : mplW p [] = 0 := by
  unfold mplW
  refine Nat.findGreatest_eq_zero_iff.mpr ?_
  intro n hn hnb hP
  rw [List.suffix_nil] at hP
  have hlen : (p.take n).length = 0 := by
    rw [hP]
    rfl
  rw [List.length_take] at hlen
  have hplen : p.length ≠ 0 := fun h => hp (List.length_eq_zero.mp h)
  omega

/-- Reference recursion for the set of match ends: while consuming the
remaining text character by character (`tpre` being the consumed part),
record `e - p.length` whenever the pattern is a suffix of the consumed text
of length `e`. -/
def endsSpec (p : List Char) : List Char → List Char → List Nat
  | _, [] => []
  | tpre, c :: rest =>
      if p <:+ tpre ++ [c] then
        (tpre.length + 1 - p.length) :: endsSpec p (tpre ++ [c]) rest
      else endsSpec p (tpre ++ [c]) rest

theorem kmpScan_eq_endsSpec (p : List Char) (hp : p ≠ []) :
    ∀ (rest tpre : List Char),
      kmpScan p rest tpre.length (mplW p tpre) = endsSpec p tpre rest := by
  intro rest
  induction rest with
  | nil => intro tpre; rfl
  | cons c rest ih =>
      intro tpre
      have hstep := kmpStep_mplW p tpre c hp
      by_cases hm : p <:+ tpre ++ [c]
      · have h1 : kmpStep p c (mplW p tpre) = p.length := by
          rw [hstep]
          exact mpl_eq_length_of_suffix hm
        have h2 : failAt p p.length = mplW p (tpre ++ [c]) := (mplW_of_full_match hm).symm
        simp only [kmpScan, h1, if_pos rfl, endsSpec, if_pos hm]
        rw [h2]
        have h3 := ih (tpre ++ [c])
        simpa [List.length_append] using h3
      · have h1 : kmpStep p c (mplW p tpre) ≠ p.length := by
          rw [hstep]
          exact fun h => hm (suffix_of_mpl_eq_length h)
        have h2 : kmpStep p c (mplW p tpre) = mplW p (tpre ++ [c]) := by
          rw [hstep]
          exact mpl_eq_mplW_of_not_suffix hp hm
        simp only [kmpScan, if_neg h1, endsSpec, if_neg hm]
        rw [h2]
        have h3 := ih (tpre ++ [c])
        simpa [List.length_append] using h3

theorem kmpSearch_eq_endsSpec (t p : List Char) (hp : p ≠ []) :
    kmpSearch t p = endsSpec p [] t := by
  unfold kmpSearch
  rw [if_neg hp]
  have h := kmpScan_eq_endsSpec p hp t []
  simpa [mplW_nil hp] using h

/-- Membership in the reference ends list, characterised by match ends in the
full text. -/
theorem endsSpec_mem (p : List Char) :
    ∀ (rest tpre : List Char) (s : Nat),
      s ∈ endsSpec p tpre rest ↔
        ∃ e, tpre.length < e ∧ e ≤ tpre.length + rest.length ∧
          p <:+ (tpre ++ rest).take e ∧ s = e - p.length := by
  intro rest
  induction rest with
  | nil =>
      intro tpre s
      constructor
      · intro h
        cases h
      · rintro ⟨e, h1, h2, _, _⟩
        simp only [List.length_nil] at h2
        omega
  | cons c rest ih =>
      intro tpre s
      have hassoc : tpre ++ c :: rest = (tpre ++ [c]) ++ rest := by
        rw [List.append_assoc]
        rfl
      have htake1 : (tpre ++ c :: rest).take (tpre.length + 1) = tpre ++ [c] := by
        have h : (tpre ++ (c :: rest)).take (tpre.length + 1) = tpre ++ (c :: rest).take 1 :=
          List.take_append 1
        simpa using h
      by_cases hm : p <:+ tpre ++ [c]
      · simp only [endsSpec, if_pos hm, List.mem_cons]
        constructor
        · rintro (rfl | hmem)
          · refine ⟨tpre.length + 1, by omega, by simp, ?_, rfl⟩
            rw [htake1]
            exact hm
          · obtain ⟨e, h1, h2, h3, h4⟩ := (ih (tpre ++ [c]) s).mp hmem
            simp only [List.length_append, List.length_cons, List.length_nil] at h1 h2
            refine ⟨e, by omega, by simp; omega, ?_, h4⟩
            rw [hassoc]
            exact h3
        · rintro ⟨e, h1, h2, h3, h4⟩
          by_cases he : e = tpre.length + 1
          · left
            rw [h4, he]
          · right
            apply (ih (tpre ++ [c]) s).mpr
            refine ⟨e, ?_, ?_, ?_, h4⟩
            · simp only [List.length_append, List.length_cons, List.length_nil]
              omega
            · simp only [List.length_append, List.length_cons, List.length_nil] at h2 ⊢
              omega
            · rw [← hassoc]
              exact h3
      · simp only [endsSpec, if_neg hm]
        rw [ih (tpre ++ [c]) s]
        constructor
        · rintro ⟨e, h1, h2, h3, h4⟩
          simp only [List.length_append, List.length_cons, List.length_nil] at h1 h2
          refine ⟨e, by omega, by simp; omega, ?_, h4⟩
          rw [hassoc]
          exact h3
        · rintro ⟨e, h1, h2, h3, h4⟩
          by_cases he : e = tpre.length + 1
          · exfalso
            rw [he, htake1] at h3
            exact hm h3
          · refine ⟨e, ?_, ?_, ?_, h4⟩
            · simp only [List.length_append, List.length_cons, List.length_nil]
              omega
            · simp only [List.length_append, List.length_cons, List.length_nil] at h2 ⊢
              omega
            · rw [← hassoc]
              exact h3

/-- Every recorded match start `s` satisfies `tpre.length < s + p.length`. -/
theorem endsSpec_gt (p : List Char) :
    ∀ (rest tpre : List Char) (s : Nat), s ∈ endsSpec p tpre rest →
      tpre.length < s + p.length := by
  intro rest tpre s hs
  obtain ⟨e, h1, _, h3, h4⟩ := (endsSpec_mem p rest tpre s).mp hs
  have hpl : p.length ≤ e := by
    have hl := h3.length_le
    rw [List.length_take] at hl
    omega
  omega

theorem endsSpec_pairwise (p : List Char) :
    ∀ (rest tpre : List Char), (endsSpec p tpre rest).Pairwise (· < ·) := by
  intro rest
  induction rest with
  | nil => intro tpre; exact List.Pairwise.nil
  | cons c rest ih =>
      intro tpre
      by_cases hm : p <:+ tpre ++ [c]
      · simp only [endsSpec, if_pos hm]
        refine List.Pairwise.cons ?_ (ih (tpre ++ [c]))
        intro s hs
        have hgt := endsSpec_gt p rest (tpre ++ [c]) s hs
        have hpl : p.length ≤ tpre.length + 1 := by
          have h := hm.length_le
          simpa using h
        simp only [List.length_append, List.length_cons, List.length_nil] at hgt
        omega
      · simp only [endsSpec, if_neg hm]
        exact ih (tpre ++ [c])

/-- The pattern is a suffix of `t.take e` iff it occurs in `t` starting at
`e - p.length`. -/
theorem suffix_take_iff {t p : List Char} {e : Nat} (he : e ≤ t.length) :
    p <:+ t.take e ↔ p.length ≤ e ∧ (t.drop (e - p.length)).take p.length = p := by
  constructor
  · intro h
    have hl : p.length ≤ e := by
      have h1 := h.length_le
      rw [List.length_take] at h1
      omega
    refine ⟨hl, ?_⟩
    have hsplit2 : t.take e = t.take (e - p.length) ++ (t.drop (e - p.length)).take p.length := by
      rw [← List.take_add]
      congr 1
      omega
    have hchunk : ((t.drop (e - p.length)).take p.length).length = p.length := by
      rw [List.length_take, List.length_drop]
      omega
    have hsuf2 : (t.drop (e - p.length)).take p.length <:+ t.take e := by
      rw [hsplit2]
      exact List.suffix_append _ _
    have hps : p <:+ (t.drop (e - p.length)).take p.length :=
      List.suffix_of_suffix_length_le h hsuf2 (by rw [hchunk])
    exact (hps.eq_of_length (by rw [hchunk])).symm
  · rintro ⟨hl, hc⟩
    have hsplit2 : t.take e = t.take (e - p.length) ++ (t.drop (e - p.length)).take p.length := by
      rw [← List.take_add]
      congr 1
      omega
    rw [hsplit2, hc]
    exact List.suffix_append _ _

/-- C1 (amended): for every nonempty pattern, `kmpSearch` is sound (every
returned offset is a genuine occurrence), complete (every occurrence offset
is returned) and strictly increasing; the empty pattern by specification
yields the empty match list. -/
theorem kmpSearch_correct (t p : List Char) (hp : p ≠ []) :
    (∀ s ∈ kmpSearch t p, s + p.length ≤ t.length ∧ (t.drop s).take p.length = p) ∧
    (∀ s, s + p.length ≤ t.length → (t.drop s).take p.length = p → s ∈ kmpSearch t p) ∧
    (kmpSearch t p).Pairwise (· < ·) := by
  have hpl : 1 ≤ p.length := by
    cases p with
    | nil => exact absurd rfl hp
    | cons a l => simp
  rw [kmpSearch_eq_endsSpec t p hp]
  refine ⟨?_, ?_, ?_⟩
  · intro s hs
    obtain ⟨e, h1, h2, h3, h4⟩ := (endsSpec_mem p t [] s).mp hs
    simp only [List.length_nil, List.nil_append] at h1 h2 h3
    have he : e ≤ t.length := by omega
    obtain ⟨hl, hocc⟩ := (suffix_take_iff he).mp h3
    subst h4
    exact ⟨by omega, hocc⟩
  · intro s hsle hocc
    apply (endsSpec_mem p t [] s).mpr
    refine ⟨s + p.length, ?_, ?_, ?_, by omega⟩
    · simp only [List.length_nil]
      omega
    · simp only [List.length_nil]
      omega
    · simp only [List.nil_append]
      apply (suffix_take_iff (by omega)).mpr
      refine ⟨by omega, ?_⟩
      have hss : s + p.length - p.length = s := by omega
      rw [hss]
      exact hocc
  · exact endsSpec_pairwise p t []

/-- Witness for the amended C1 at the spec's own scenario text and pattern. -/
theorem kmpSearch_correct_witness :
    "ban".data ≠ [] ∧
    ((∀ s ∈ kmpSearch "banana bandana band".data "ban".data,
        s + ("ban".data).length ≤ ("banana bandana band".data).length ∧
        (("banana bandana band".data).drop s).take ("ban".data).length = "ban".data) ∧
     (∀ s, s + ("ban".data).length ≤ ("banana bandana band".data).length →
        (("banana bandana band".data).drop s).take ("ban".data).length = "ban".data →
        s ∈ kmpSearch "banana bandana band".data "ban".data) ∧
     (kmpSearch "banana bandana band".data "ban".data).Pairwise (· < ·)) :=
  ⟨by decide, kmpSearch_correct "banana bandana band".data "ban".data (by decide)⟩

/-- Counterexample to C1 as stated: for the empty pattern, offset 0 of the
text "a" is a valid occurrence (`t.substring(0, 0) == ""`), yet
`kmpSearch("a", "")` returns the empty list (the spec-mandated empty-pattern
edge case), so completeness fails for the empty pattern. -/
theorem kmpSearch_empty_pattern_cex :
    0 + ([] : List Char).length ≤ ("a".data).length ∧
    (("a".data).drop 0).take ([] : List Char).length = ([] : List Char) ∧
    kmpSearch "a".data ([] : List Char) = [] ∧
    ¬ 0 ∈ kmpSearch "a".data ([] : List Char) := by decide

end STE
